import Mathlib

/-!
Verification of the Build-on-Push core of platform-ci.

The Python sources are embedded shallowly:

* `platform_ci/distgit.py` — branch-name classification.  The two regular
  expressions of `DistGitBranch` are embedded as deterministic matchers on
  `List Char`.  Determinism is faithful to Python's backtracking semantics
  because at every choice point of these particular patterns at most one
  alternative can lead to an overall match (the literal heads `extras-`,
  `rhscl-` and `rhel-` are pairwise incompatible, the lazy `\w+?-` can only
  stop at the first non-word character, and the optional `(\.\d)?` cannot
  overlap the following `-staging` / end-of-input check).
* `platform_ci/ci_types.py` — target resolution (`CommitCI`).
* `platform_ci/brew.py` — build attempt bookkeeping (`BrewBuildAttempt[s]`).
-/

/-- Python 2 `\w` without `re.UNICODE`: ASCII letters, digits and underscore. -/
def isWordChar (c : Char) : Bool :=
  c.isAlpha || c.isDigit || c == '_'

/-- Character class `[\w_-]` used by the `private-` prefix and suffix parts. -/
def isMidChar (c : Char) : Bool :=
  isWordChar c || c == '-'

/-- Literal `private-` (prefix of private staging branches). -/
def privLit : List Char := ['p', 'r', 'i', 'v', 'a', 't', 'e', '-']

/-- Literal `rhel-`. -/
def rhelHd : List Char := ['r', 'h', 'e', 'l', '-']

/-- Literal `extras-`. -/
def extrasLit : List Char := ['e', 'x', 't', 'r', 'a', 's', '-']

/-- Literal `rhscl-`. -/
def rhsclHd : List Char := ['r', 'h', 's', 'c', 'l', '-']

/-- Literal `-rh-` (middle part of the rhscl prefix). -/
def rhMid : List Char := ['-', 'r', 'h', '-']

/-- Literal `-staging` (the staging suffix of the staging pattern). -/
def stagSuf : List Char := ['-', 's', 't', 'a', 'g', 'i', 'n', 'g']

/-- Literal `staging` (the substring replaced by `str.replace`). -/
def stagLit : List Char := ['s', 't', 'a', 'g', 'i', 'n', 'g']

/-- Literal `candidate` (the replacement substring). -/
def candLit : List Char := ['c', 'a', 'n', 'd', 'i', 'd', 'a', 't', 'e']

/-- Literal `-candidate` (appended to a standard branch base). -/
def candSuf : List Char := ['-', 'c', 'a', 'n', 'd', 'i', 'd', 'a', 't', 'e']

/-- Consume the literal `lit` from the front of `s`, returning the rest. -/
def stripL : List Char → List Char → Option (List Char)
  | [], s => some s
  | _ :: _, [] => none
  | l :: ls, c :: cs => if c = l then stripL ls cs else none

/-- Split `s` at the first character that is not a `\w` character:
the result is the (possibly empty) leading word-character run and the rest. -/
def takeRun : List Char → List Char × List Char
  | [] => ([], [])
  | c :: rest =>
    if isWordChar c then
      let p := takeRun rest
      (c :: p.1, p.2)
    else ([], c :: rest)

/-- Matcher for `rhel-\d(\.\d)?` at the front of the input.  Returns the
consumed characters and the rest.  The greedy optional minor version is
deterministic: if `.` and a digit follow they are consumed (in every use the
continuation expects `-` or end of input, which cannot also start with `.`). -/
def matchRhel (s : List Char) : Option (List Char × List Char) :=
  match stripL rhelHd s with
  | none => none
  | some t =>
    match t with
    | [] => none
    | d :: t1 =>
      if d.isDigit then
        match t1 with
        | [] => some (rhelHd ++ [d], [])
        | c :: t2 =>
          if c = '.' then
            match t2 with
            | [] => some (rhelHd ++ [d], c :: t2)
            | d2 :: t3 =>
              if d2.isDigit then some (rhelHd ++ [d, '.', d2], t3)
              else some (rhelHd ++ [d], c :: t2)
          else some (rhelHd ++ [d], c :: t2)
      else none

/-- Matcher for the optional prefix `((extras-)|(rhscl-\d\.\d-rh-\w+?-))?`.
Returns the consumed prefix and the rest.  Committed choice is faithful to
the backtracking engine: the three continuations start with the pairwise
incompatible literals `extras-`, `rhscl-` and `rhel-`, and the lazy `\w+?-`
has exactly one viable split (the word run cannot cross a non-word char). -/
def matchCorePrefix (s : List Char) : Option (List Char × List Char) :=
  match stripL extrasLit s with
  | some r => some (extrasLit, r)
  | none =>
    match stripL rhsclHd s with
    | none => some ([], s)
    | some t =>
      match t with
      | [] => none
      | d1 :: t1 =>
        if d1.isDigit then
          match t1 with
          | [] => none
          | c :: t2 =>
            if c = '.' then
              match t2 with
              | [] => none
              | d2 :: t3 =>
                if d2.isDigit then
                  match stripL rhMid t3 with
                  | none => none
                  | some t4 =>
                    match takeRun t4 with
                    | (w, t5) =>
                      if w = [] then none
                      else
                        match t5 with
                        | [] => none
                        | c2 :: t6 =>
                          if c2 = '-' then
                            some (rhsclHd ++ d1 :: '.' :: d2 :: (rhMid ++ w ++ ['-']), t6)
                          else none
                else none
            else none
        else none

/-- Matcher for `((extras-)|(rhscl-\d\.\d-rh-\w+?-))?rhel-\d(\.\d)?`, the part
named `st_branch` by `STANDARD_BRANCH_REGEXP_PATTERN` (without the `$`). -/
def matchCore (s : List Char) : Option (List Char × List Char) :=
  match matchCorePrefix s with
  | none => none
  | some (p, r) =>
    match matchRhel r with
    | none => none
    | some (m, r2) => some (p ++ m, r2)

/-- Matcher for the `st_branch` group of `STAGING_BRANCH_REGEXP_PATTERN`:
the core followed by the literal `-staging`. -/
def matchStagingCore (s : List Char) : Option (List Char × List Char) :=
  match matchCore s with
  | none => none
  | some (b, r) =>
    match stripL stagSuf r with
    | none => none
    | some r2 => some (b ++ stagSuf, r2)

/-- Python `$` without `re.MULTILINE`: matches at the end of the string or
just before a single trailing newline. -/
def endDollar (r : List Char) : Bool :=
  match r with
  | [] => true
  | [c] => c = '\n'
  | _ => false

/-- `STANDARD_BRANCH_REGEXP.match(name)`: the pattern is the core anchored at
the start (by `re.match`) and at the end (by `$`).  Returns the `st_branch`
group on success. -/
def matchStandardM (s : List Char) : Option (List Char) :=
  match matchCore s with
  | none => none
  | some (b, r) => if endDollar r then some b else none

/-- The staging branch regex without a participating `prefix` group: the
`st_branch` core must match at the start and be followed by `$`
(conditional pattern `(?(prefix)[\w_-]*?|$)`, no-prefix alternative). -/
def noPrefixStaging (s : List Char) : Option (List Char × List Char) :=
  match matchStagingCore s with
  | none => none
  | some (b, r) => if endDollar r then some (b, r) else none

/-- Lazy scan performed by `private-[\w_-]*?` followed by the `st_branch`
group: try the staging core at each position, moving right one `[\w_-]`
character at a time.  Returns the leftmost core match and the rest.  When the
prefix group participates the trailing conditional `[\w_-]*?` lazily matches
the empty string, so nothing is required of the rest. -/
def scanCore : List Char → Option (List Char × List Char)
  | [] => none
  | c :: rest =>
    match matchStagingCore (c :: rest) with
    | some x => some x
    | none => if isMidChar c then scanCore rest else none

/-- `STAGING_BRANCH_REGEXP.match(name)`, returning the `st_branch` group and
the input remaining after it.  The greedy optional `prefix` group is tried
first; on failure the engine retries without it from position 0. -/
def stagingMatch (s : List Char) : Option (List Char × List Char) :=
  match stripL privLit s with
  | some r =>
    match scanCore r with
    | some x => some x
    | none => noPrefixStaging s
  | none => noPrefixStaging s

/-- Fuelled worker for `replaceAll`; the fuel is an upper bound on the input
length, so the function is structurally recursive and kernel-reducible. -/
def repFuel (pat rep : List Char) : Nat → List Char → List Char
  | 0, s => s
  | _ + 1, [] => []
  | fuel + 1, c :: rest =>
    if pat ≠ [] ∧ pat.isPrefixOf (c :: rest) = true then
      rep ++ repFuel pat rep fuel (List.drop (pat.length - 1) rest)
    else c :: repFuel pat rep fuel rest

/-- Python `str.replace(pat, rep)` for a non-empty `pat`: replace all
non-overlapping occurrences, scanning left to right. -/
def replaceAll (pat rep s : List Char) : List Char :=
  repFuel pat rep s.length s

/-- Pack a character list back into a string. -/
def listToStr (l : List Char) : String := String.mk l

deriving instance DecidableEq for Except

/-- A DistGit branch, represented (as in the source) purely by its name. -/
structure DistGitBranch where
  name : String
deriving DecidableEq

/-- `DistGitBranch.is_staging`: the staging regex matches the name. -/
def DistGitBranch.is_staging (b : DistGitBranch) : Bool :=
  (stagingMatch b.name.data).isSome

/-- `DistGitBranch.is_standard`: the standard regex matches the name. -/
def DistGitBranch.is_standard (b : DistGitBranch) : Bool :=
  (matchStandardM b.name.data).isSome

/-- `DistGitBranch.staging_target`: for a staging branch, the `st_branch`
group with `staging` replaced (all occurrences, as `str.replace` does) by
`candidate`; for a standard branch, the `st_branch` group with `-candidate`
appended; otherwise a `DistGitBranchException` is raised, modelled as
`Except.error` carrying the exception message. -/
def DistGitBranch.staging_target (b : DistGitBranch) : Except String String :=
  match stagingMatch b.name.data with
  | some (base, _) => .ok (listToStr (replaceAll stagLit candLit base))
  | none =>
    match matchStandardM b.name.data with
    | some base => .ok (listToStr (base ++ candSuf))
    | none => .error (b.name ++ " is not a staging or standard branch")

/-- `DistGitBranch.type`: one of `staging`, `private staging`, `standard`,
`private` (the `name.startswith("private-")` test is prefix comparison). -/
def DistGitBranch.type (b : DistGitBranch) : String :=
  if b.is_staging then
    if privLit.isPrefixOf b.name.data then "private staging" else "staging"
  else if b.is_standard then "standard"
  else "private"

/-- `CommitCI._run_by_config`: the worker job is triggered on exactly the
config's target list. -/
def CommitCI.run_by_config (_branch : DistGitBranch) (configTargets : List String) :
    List String :=
  configTargets

/-- `CommitCI._run_on_staging`: targets from the config file when present
(empty list otherwise), then the branch's staging target appended unless
already present.  A failing `staging_target` propagates. -/
def CommitCI.run_on_staging (staging_branch : DistGitBranch)
    (configTargets : Option (List String)) : Except String (List String) :=
  let targets := match configTargets with
    | some ts => ts
    | none => []
  match staging_branch.staging_target with
  | .error e => .error e
  | .ok st => .ok (if st ∈ targets then targets else targets ++ [st])

/-- `CommitCI.consider_build`: staging branches always build; otherwise a
present config file decides; otherwise nothing is built.  The boolean records
whether a worker job was triggered (`_run_on_targets` reached). -/
def CommitCI.consider_build (branch : DistGitBranch)
    (configTargets : Option (List String)) : Except String (List String × Bool) :=
  if branch.is_staging then
    match CommitCI.run_on_staging branch configTargets with
    | .error e => .error e
    | .ok ts => .ok (ts, true)
  else
    match configTargets with
    | some ts => .ok (CommitCI.run_by_config branch ts, true)
    | none => .ok ([], false)

/-- Errors observable from `brew.py`: the `BrewBuildAttemptException` raised
by `passed()` before `wait()`, and Python's `KeyError` on a missing
`builds[target]` entry. -/
inductive PyError where
  | brewError (msg : String)
  | keyError (key : String)
deriving DecidableEq

/-- Message of the exception raised by `BrewBuildAttempt.passed`. -/
def brewNotSetMsg : String := "Brew build success was not set in wait() method"

/-- `BrewBuildAttempt`: the fields relevant to control flow.  The log file
path and the subprocess handle are I/O-only and carry no decision state;
`succ` models `_success` (None until `wait()` runs). -/
structure BrewBuildAttempt where
  target : String
  succ : Option Bool
deriving DecidableEq

/-- `BrewBuildAttempt.wait`: record the exit status of the external
execution; `_success` becomes `returncode == 0`. -/
def BrewBuildAttempt.wait (a : BrewBuildAttempt) (returncode : Int) : BrewBuildAttempt :=
  { a with succ := some (returncode == 0) }

/-- `BrewBuildAttempt.passed`: raises `BrewBuildAttemptException` when
`wait()` has not set `_success` yet. -/
def BrewBuildAttempt.passed (a : BrewBuildAttempt) : Except PyError Bool :=
  match a.succ with
  | none => .error (.brewError brewNotSetMsg)
  | some b => .ok b

/-- Lookup in the `builds` dict (keys are targets, insertion ordered). -/
def dictGet : List (String × BrewBuildAttempt) → String → Option BrewBuildAttempt
  | [], _ => none
  | (k, v) :: rest, t => if k = t then some v else dictGet rest t

/-- Assignment `builds[t] = v`: update in place, or append a new key. -/
def dictSet : List (String × BrewBuildAttempt) → String → BrewBuildAttempt →
    List (String × BrewBuildAttempt)
  | [], t, v => [(t, v)]
  | (k, w) :: rest, t, v =>
    if k = t then (t, v) :: rest else (k, w) :: dictSet rest t v

/-- `BrewBuildAttempts`: the target list and the `builds` dict. -/
structure BrewBuildAttempts where
  targets : List String
  builds : List (String × BrewBuildAttempt)
deriving DecidableEq

/-- `BrewBuildAttempts.execute`: create one fresh (unwaited) attempt per
target and issue the external request for it. -/
def BrewBuildAttempts.executeAll (targets : List String) : BrewBuildAttempts :=
  { targets := targets
    builds := targets.foldl (fun m t => dictSet m t { target := t, succ := none }) [] }

/-- Worker for `BrewBuildAttempts.wait`: `for target in targets:
builds[target].wait()`.  A missing key is Python's `KeyError`, modelled as
`none`.  `rc` gives the exit status of each target's external execution. -/
def waitList (rc : String → Int) :
    List String → List (String × BrewBuildAttempt) →
    Option (List (String × BrewBuildAttempt))
  | [], m => some m
  | t :: ts, m =>
    match dictGet m t with
    | none => none
    | some a => waitList rc ts (dictSet m t (a.wait (rc t)))

/-- `BrewBuildAttempts.wait` (the `await_all` of the spec): block until every
issued request finished, recording each exit status. -/
def BrewBuildAttempts.waitAll (s : BrewBuildAttempts) (rc : String → Int) :
    Option BrewBuildAttempts :=
  match waitList rc s.targets s.builds with
  | none => none
  | some m => some { s with builds := m }

/-- Waiting on one single attempt (`attempts.builds[t].wait()`), as the
per-attempt API of `BrewBuildAttempt` allows. -/
def BrewBuildAttempts.waitOne (s : BrewBuildAttempts) (t : String) (rc : Int) :
    Option BrewBuildAttempts :=
  match dictGet s.builds t with
  | none => none
  | some a => some { s with builds := dictSet s.builds t (a.wait rc) }

/-- Worker for `all_successful`: `for target in targets: if not
builds[target].passed(): return False` then `return True`. -/
def allSuccessfulAux (builds : List (String × BrewBuildAttempt)) :
    List String → Except PyError Bool
  | [] => .ok true
  | t :: ts =>
    match dictGet builds t with
    | none => .error (.keyError t)
    | some a =>
      match a.passed with
      | .error e => .error e
      | .ok b => if b then allSuccessfulAux builds ts else .ok false

/-- `BrewBuildAttempts.all_successful` (the `all_passed` of the spec). -/
def BrewBuildAttempts.all_successful (s : BrewBuildAttempts) : Except PyError Bool :=
  allSuccessfulAux s.builds s.targets

/-- Worker for `count_failed`: iterate over the `builds` entries, counting
failed attempts; `passed()` exceptions propagate.  (The count itself does not
depend on the dict iteration order.) -/
def countFailedAux : List (String × BrewBuildAttempt) → Except PyError Nat
  | [] => .ok 0
  | (_, a) :: rest =>
    match a.passed with
    | .error e => .error e
    | .ok b =>
      match countFailedAux rest with
      | .error e => .error e
      | .ok n => .ok (if b then n else n + 1)

/-- `BrewBuildAttempts.count_failed` (the `failed_count` of the spec). -/
def BrewBuildAttempts.count_failed (s : BrewBuildAttempts) : Except PyError Nat :=
  countFailedAux s.builds

/-! ### Basic lemmas about the character-level helpers -/

theorem stripL_eq_some {lit : List Char} : ∀ {s r : List Char},
    stripL lit s = some r ↔ s = lit ++ r := by
  induction lit with
  | nil =>
    intro s r
    simp [stripL]
  | cons l ls ih =>
    intro s r
    cases s with
    | nil => simp [stripL]
    | cons c cs =>
      by_cases hc : c = l
      · subst hc
        simp [stripL, ih]
      · simp [stripL, hc]

theorem stripL_append (lit r : List Char) : stripL lit (lit ++ r) = some r := by
  rw [stripL_eq_some]

theorem takeRun_word_append {w : List Char} (hw : w.all isWordChar = true) :
    ∀ {c : Char} {rest : List Char}, isWordChar c = false →
      takeRun (w ++ c :: rest) = (w, c :: rest) := by
  induction w with
  | nil =>
    intro c rest hc
    simp [takeRun, hc]
  | cons a as ih =>
    intro c rest hc
    simp only [List.all_cons, Bool.and_eq_true] at hw
    simp [takeRun, hw.1, ih hw.2 hc]

theorem takeRun_inv : ∀ {s w r : List Char}, takeRun s = (w, r) →
    s = w ++ r ∧ w.all isWordChar = true := by
  intro s
  induction s with
  | nil =>
    intro w r h
    simp [takeRun] at h
    simp [h.1, h.2]
  | cons c cs ih =>
    intro w r h
    by_cases hc : isWordChar c = true
    · rcases hq : takeRun cs with ⟨w0, r0⟩
      obtain ⟨hs, hall⟩ := ih hq
      simp [takeRun, hc, hq] at h
      obtain ⟨h1, h2⟩ := h
      subst h1
      subst h2
      constructor
      · rw [hs]
        simp
      · simp [List.all_cons, hc, hall]
    · rw [Bool.not_eq_true] at hc
      simp [takeRun, hc] at h
      obtain ⟨h1, h2⟩ := h
      subst h1
      subst h2
      simp

/-! ### Shape characterisations of the regex matchers -/

/-- Shape of a successful `rhel-\d(\.\d)?` match. -/
def RhelShapeP (m : List Char) : Prop :=
  ∃ d, d.isDigit = true ∧
    (m = rhelHd ++ [d] ∨ ∃ d2, d2.isDigit = true ∧ m = rhelHd ++ [d, '.', d2])

/-- Shape of a successful optional-prefix match. -/
def PreShapeP (p : List Char) : Prop :=
  p = [] ∨ p = extrasLit ∨
    ∃ d1 d2 w, d1.isDigit = true ∧ d2.isDigit = true ∧ w ≠ [] ∧
      w.all isWordChar = true ∧
      p = rhsclHd ++ d1 :: '.' :: d2 :: (rhMid ++ w ++ ['-'])

/-- Shape of a successful `st_branch` match of the staging pattern. -/
def StagCoreShapeP (b : List Char) : Prop :=
  ∃ p m, PreShapeP p ∧ RhelShapeP m ∧ b = p ++ m ++ stagSuf

theorem matchRhel_inv {s m r : List Char} (h : matchRhel s = some (m, r)) :
    s = m ++ r ∧ RhelShapeP m := by
  unfold matchRhel at h
  split at h
  · exact absurd h (by simp)
  next t hs =>
    rw [stripL_eq_some] at hs
    split at h
    · exact absurd h (by simp)
    next d t1 =>
      split at h
      case isFalse => exact absurd h (by simp)
      case isTrue hd =>
        split at h
        · simp only [Option.some.injEq, Prod.mk.injEq] at h
          refine ⟨?_, d, hd, Or.inl h.1.symm⟩
          simp [hs, ← h.1, ← h.2]
        next c t2 =>
          split at h
          case isTrue hc =>
            split at h
            · simp only [Option.some.injEq, Prod.mk.injEq] at h
              refine ⟨?_, d, hd, Or.inl h.1.symm⟩
              simp [hs, ← h.1, ← h.2, hc]
            next d2 t3 =>
              split at h
              case isTrue hd2 =>
                simp only [Option.some.injEq, Prod.mk.injEq] at h
                refine ⟨?_, d, hd, Or.inr ⟨d2, hd2, h.1.symm⟩⟩
                simp [hs, ← h.1, ← h.2, hc]
              case isFalse hd2 =>
                simp only [Option.some.injEq, Prod.mk.injEq] at h
                refine ⟨?_, d, hd, Or.inl h.1.symm⟩
                simp [hs, ← h.1, ← h.2]
          case isFalse hc =>
            simp only [Option.some.injEq, Prod.mk.injEq] at h
            refine ⟨?_, d, hd, Or.inl h.1.symm⟩
            simp [hs, ← h.1, ← h.2]

theorem matchRhel_build_nominor {d : Char} (hd : d.isDigit = true)
    {rest : List Char} (hrest : ∀ cs, rest ≠ '.' :: cs) :
    matchRhel (rhelHd ++ d :: rest) = some (rhelHd ++ [d], rest) := by
  unfold matchRhel
  rw [show rhelHd ++ d :: rest = rhelHd ++ (d :: rest) from rfl, stripL_append]
  cases rest with
  | nil => simp [hd]
  | cons c t2 =>
    have hc : c ≠ '.' := by
      intro hcc
      exact hrest t2 (by rw [hcc])
    simp [hd, hc]

theorem matchRhel_build_minor {d d2 : Char} (hd : d.isDigit = true)
    (hd2 : d2.isDigit = true) (rest : List Char) :
    matchRhel (rhelHd ++ d :: '.' :: d2 :: rest) = some (rhelHd ++ [d, '.', d2], rest) := by
  unfold matchRhel
  rw [show rhelHd ++ d :: '.' :: d2 :: rest = rhelHd ++ (d :: '.' :: d2 :: rest) from rfl,
    stripL_append]
  simp [hd, hd2]

theorem matchCorePrefix_build_nil (x : List Char) :
    matchCorePrefix (rhelHd ++ x) = some ([], rhelHd ++ x) := by
  unfold matchCorePrefix
  rw [show stripL extrasLit (rhelHd ++ x) = none from by simp [stripL, extrasLit, rhelHd]]
  rw [show stripL rhsclHd (rhelHd ++ x) = none from by simp [stripL, rhsclHd, rhelHd]]

theorem matchCorePrefix_build_extras (x : List Char) :
    matchCorePrefix (extrasLit ++ x) = some (extrasLit, x) := by
  unfold matchCorePrefix
  rw [stripL_append]

theorem matchCorePrefix_build_rhscl {d1 d2 : Char} {w : List Char}
    (hd1 : d1.isDigit = true) (hd2 : d2.isDigit = true)
    (hwne : w ≠ []) (hw : w.all isWordChar = true) (x : List Char) :
    matchCorePrefix (rhsclHd ++ d1 :: '.' :: d2 :: (rhMid ++ w ++ ['-']) ++ x) =
      some (rhsclHd ++ d1 :: '.' :: d2 :: (rhMid ++ w ++ ['-']), x) := by
  unfold matchCorePrefix
  rw [show stripL extrasLit (rhsclHd ++ d1 :: '.' :: d2 :: (rhMid ++ w ++ ['-']) ++ x) = none
    from by simp [stripL, extrasLit, rhsclHd]]
  rw [show rhsclHd ++ d1 :: '.' :: d2 :: (rhMid ++ w ++ ['-']) ++ x =
    rhsclHd ++ (d1 :: '.' :: d2 :: (rhMid ++ (w ++ '-' :: x))) from by simp]
  rw [stripL_append]
  simp [hd1, hd2, stripL_append,
    takeRun_word_append hw (show isWordChar '-' = false from by decide), hwne]

theorem matchCorePrefix_inv {s p r : List Char} (h : matchCorePrefix s = some (p, r)) :
    s = p ++ r ∧ PreShapeP p := by
  unfold matchCorePrefix at h
  split at h
  next t hs =>
    rw [stripL_eq_some] at hs
    simp only [Option.some.injEq, Prod.mk.injEq] at h
    exact ⟨by simp [hs, ← h.1, ← h.2], Or.inr (Or.inl h.1.symm)⟩
  next =>
    split at h
    next =>
      simp only [Option.some.injEq, Prod.mk.injEq] at h
      exact ⟨by simp [← h.1, ← h.2], Or.inl h.1.symm⟩
    next t hs =>
      rw [stripL_eq_some] at hs
      split at h
      · exact absurd h (by simp)
      next d1 t1 =>
        split at h
        case isFalse => exact absurd h (by simp)
        case isTrue hd1 =>
          split at h
          · exact absurd h (by simp)
          next c t2 =>
            split at h
            case isFalse => exact absurd h (by simp)
            case isTrue hc =>
              split at h
              · exact absurd h (by simp)
              next d2 t3 =>
                split at h
                case isFalse => exact absurd h (by simp)
                case isTrue hd2 =>
                  split at h
                  · exact absurd h (by simp)
                  next t4 hmid =>
                    rw [stripL_eq_some] at hmid
                    split at h
                    next w t5 hrun =>
                      obtain ⟨ht4, hw⟩ := takeRun_inv hrun
                      split at h
                      case isTrue => exact absurd h (by simp)
                      case isFalse hwne =>
                        split at h
                        · exact absurd h (by simp)
                        next c2 t6 =>
                          split at h
                          case isFalse => exact absurd h (by simp)
                          case isTrue hc2 =>
                            simp only [Option.some.injEq, Prod.mk.injEq] at h
                            refine ⟨?_, Or.inr (Or.inr ⟨d1, d2, w, hd1, hd2, hwne, hw,
                              h.1.symm⟩)⟩
                            subst hc
                            subst hc2
                            simp [hs, ht4, hmid, ← h.1, ← h.2]

theorem matchCore_build {p m : List Char} (hp : PreShapeP p) (hm : RhelShapeP m)
    {rest : List Char} (hrest : ∀ cs, rest ≠ '.' :: cs) :
    matchCore (p ++ m ++ rest) = some (p ++ m, rest) := by
  have hrhel : matchRhel (m ++ rest) = some (m, rest) := by
    obtain ⟨d, hd, hcase⟩ := hm
    rcases hcase with hnm | ⟨d2, hd2, hmm⟩
    · subst hnm
      rw [show rhelHd ++ [d] ++ rest = rhelHd ++ d :: rest from by simp]
      exact matchRhel_build_nominor hd hrest
    · subst hmm
      rw [show rhelHd ++ [d, '.', d2] ++ rest = rhelHd ++ d :: '.' :: d2 :: rest from by simp]
      exact matchRhel_build_minor hd hd2 rest
  rcases hp with hp0 | hpe | ⟨d1, d2, w, hd1, hd2, hwne, hw, hpr⟩
  · subst hp0
    obtain ⟨d, hd, hcase⟩ := hm
    have hmh : ∃ x, m ++ rest = rhelHd ++ x := by
      rcases hcase with hnm | ⟨d2, hd2, hmm⟩
      · exact ⟨d :: rest, by simp [hnm]⟩
      · exact ⟨d :: '.' :: d2 :: rest, by simp [hmm]⟩
    obtain ⟨x, hx⟩ := hmh
    unfold matchCore
    rw [show ([] : List Char) ++ m ++ rest = m ++ rest from by simp, hx,
      matchCorePrefix_build_nil, ← hx]
    simp [hrhel]
  · subst hpe
    unfold matchCore
    rw [show extrasLit ++ m ++ rest = extrasLit ++ (m ++ rest) from by simp,
      matchCorePrefix_build_extras]
    simp [hrhel]
  · subst hpr
    unfold matchCore
    rw [show rhsclHd ++ d1 :: '.' :: d2 :: (rhMid ++ w ++ ['-']) ++ m ++ rest =
      rhsclHd ++ d1 :: '.' :: d2 :: (rhMid ++ w ++ ['-']) ++ (m ++ rest) from by simp,
      matchCorePrefix_build_rhscl hd1 hd2 hwne hw]
    simp [hrhel]

theorem matchCore_inv {s b r : List Char} (h : matchCore s = some (b, r)) :
    s = b ++ r ∧ ∃ p m, PreShapeP p ∧ RhelShapeP m ∧ b = p ++ m := by
  unfold matchCore at h
  split at h
  · exact absurd h (by simp)
  next p r0 hpre =>
    split at h
    · exact absurd h (by simp)
    next m r2 hrhel =>
      simp only [Option.some.injEq, Prod.mk.injEq] at h
      obtain ⟨hs0, hp⟩ := matchCorePrefix_inv hpre
      obtain ⟨hr0, hm⟩ := matchRhel_inv hrhel
      refine ⟨?_, p, m, hp, hm, h.1.symm⟩
      simp [hs0, hr0, ← h.1, ← h.2]

theorem stagingCore_build {b : List Char} (hb : StagCoreShapeP b) (rest : List Char) :
    matchStagingCore (b ++ rest) = some (b, rest) := by
  obtain ⟨p, m, hp, hm, hbr⟩ := hb
  subst hbr
  unfold matchStagingCore
  rw [show p ++ m ++ stagSuf ++ rest = p ++ m ++ (stagSuf ++ rest) from by simp,
    matchCore_build hp hm (by intro cs hcs; rw [show stagSuf ++ rest =
      '-' :: ('s' :: 't' :: 'a' :: 'g' :: 'i' :: 'n' :: 'g' :: rest) from by
        simp [stagSuf]] at hcs; exact absurd hcs (by simp))]
  simp [stripL_append]

theorem stagingCore_inv {s b r : List Char} (h : matchStagingCore s = some (b, r)) :
    s = b ++ r ∧ StagCoreShapeP b := by
  unfold matchStagingCore at h
  split at h
  · exact absurd h (by simp)
  next b0 r0 hcore =>
    split at h
    · exact absurd h (by simp)
    next r2 hsuf =>
      simp only [Option.some.injEq, Prod.mk.injEq] at h
      rw [stripL_eq_some] at hsuf
      obtain ⟨hs0, p, m, hp, hm, hb0⟩ := matchCore_inv hcore
      refine ⟨?_, p, m, hp, hm, by rw [← h.1, hb0]⟩
      simp [hs0, hsuf, ← h.1, ← h.2, hb0]

theorem stagingCore_extend {s b : List Char} (h : matchStagingCore s = some (b, []))
    (e : List Char) : matchStagingCore (s ++ e) = some (b, e) := by
  obtain ⟨hs, hshape⟩ := stagingCore_inv h
  rw [List.append_nil] at hs
  subst hs
  exact stagingCore_build hshape e

theorem matchStagingCore_nil : matchStagingCore [] = none := by
  decide

theorem scanCore_found {mid core suffix : List Char}
    (hmid : mid.all isMidChar = true)
    (hnone : ∀ i, i < mid.length →
      matchStagingCore (List.drop i (mid ++ core ++ suffix)) = none)
    (hc : matchStagingCore (core ++ suffix) = some (core, suffix)) :
    scanCore (mid ++ core ++ suffix) = some (core, suffix) := by
  induction mid with
  | nil =>
    simp only [List.nil_append]
    cases hcs : core ++ suffix with
    | nil =>
      rw [hcs, matchStagingCore_nil] at hc
      exact absurd hc (by simp)
    | cons c rest =>
      rw [hcs] at hc
      unfold scanCore
      rw [hc]
  | cons c mid' ih =>
    simp only [List.all_cons, Bool.and_eq_true] at hmid
    have h0 : matchStagingCore (c :: (mid' ++ core ++ suffix)) = none := by
      have := hnone 0 (by simp)
      simpa using this
    rw [show (c :: mid') ++ core ++ suffix = c :: (mid' ++ core ++ suffix) from by simp]
    simp only [scanCore, h0, hmid.1, if_true]
    exact ih hmid.2 (fun i hi => by
      have := hnone (i + 1) (by simp; omega)
      simpa using this)

theorem stagingMatch_private {mid core suffix : List Char}
    (hmid : mid.all isMidChar = true)
    (hnone : ∀ i, i < mid.length →
      matchStagingCore (List.drop i (mid ++ core ++ suffix)) = none)
    (hc : matchStagingCore core = some (core, [])) :
    stagingMatch (privLit ++ (mid ++ core ++ suffix)) = some (core, suffix) := by
  unfold stagingMatch
  rw [stripL_append]
  have hscan := scanCore_found hmid hnone (stagingCore_extend hc suffix)
  rw [List.append_assoc] at hscan
  simp [hscan]

theorem isPrefixOf_append (l r : List Char) : l.isPrefixOf (l ++ r) = true :=
  List.isPrefixOf_iff_prefix.mpr (List.prefix_append l r)

theorem is_staging_of_stagingMatch {b : DistGitBranch} {x : List Char × List Char}
    (h : stagingMatch b.name.data = some x) : b.is_staging = true := by
  simp [DistGitBranch.is_staging, h]

theorem stagingMatch_of_is_staging {b : DistGitBranch} (h : b.is_staging = true) :
    ∃ x, stagingMatch b.name.data = some x := by
  simp only [DistGitBranch.is_staging, Option.isSome_iff_exists] at h
  exact h

theorem stagingMatch_of_not_staging {b : DistGitBranch} (h : b.is_staging = false) :
    stagingMatch b.name.data = none := by
  simp only [DistGitBranch.is_staging] at h
  exact Option.not_isSome_iff_eq_none.mp (by simp [h])

theorem type_staging_cases {b : DistGitBranch} (h : b.is_staging = true) :
    b.type = "staging" ∨ b.type = "private staging" := by
  rw [DistGitBranch.type, if_pos h]
  by_cases hp : privLit.isPrefixOf b.name.data = true
  · exact Or.inr (by rw [if_pos hp])
  · exact Or.inl (by rw [if_neg hp])

theorem is_staging_of_type {b : DistGitBranch}
    (h : b.type = "staging" ∨ b.type = "private staging") : b.is_staging = true := by
  cases hst : b.is_staging with
  | true => rfl
  | false =>
    exfalso
    rw [DistGitBranch.type, if_neg (by simp [hst])] at h
    by_cases hsd : b.is_standard = true
    · rw [if_pos hsd] at h
      rcases h with h | h <;> exact absurd h (by decide)
    · rw [if_neg hsd] at h
      rcases h with h | h <;> exact absurd h (by decide)

/-! ### Lemmas about `replaceAll` -/

theorem repFuel_nil (pat rep : List Char) (fuel : Nat) : repFuel pat rep fuel [] = [] := by
  cases fuel <;> rfl

theorem repFuel_boundary : ∀ (fuel : Nat) (p : List Char),
    (p ++ stagLit).length ≤ fuel → ¬ stagLit <:+: p →
    repFuel stagLit candLit fuel (p ++ stagLit) = p ++ candLit := by
  intro fuel
  induction fuel with
  | zero =>
    intro p hlen _
    simp [stagLit] at hlen
  | succ f ih =>
    intro p hlen hp
    cases p with
    | nil =>
      simp only [List.nil_append]
      rw [show (stagLit : List Char) = 's' :: ['t', 'a', 'g', 'i', 'n', 'g'] from rfl]
      rw [repFuel]
      rw [if_pos ⟨by decide, by decide⟩]
      rw [show List.drop (['s', 't', 'a', 'g', 'i', 'n', 'g'].length - 1)
        ['t', 'a', 'g', 'i', 'n', 'g'] = [] from by decide, repFuel_nil]
      simp
    | cons c p' =>
      by_cases hpre : stagLit.isPrefixOf (c :: (p' ++ stagLit)) = true
      · exfalso
        have hpfx : stagLit <+: (c :: p') ++ stagLit := by
          rw [← List.isPrefixOf_iff_prefix]
          simpa using hpre
        have htake : stagLit = ((c :: p') ++ stagLit).take 7 := by
          have := List.prefix_iff_eq_take.mp hpfx
          simpa [show stagLit.length = 7 from rfl] using this
        rw [List.take_append_eq_append_take] at htake
        rcases le_or_lt 7 (c :: p').length with hk | hk
        · rw [show 7 - (c :: p').length = 0 from by omega] at htake
          simp only [List.take_zero, List.append_nil] at htake
          exact hp (List.IsPrefix.isInfix (htake ▸ List.take_prefix 7 (c :: p')))
        · rw [List.take_of_length_le (by omega)] at htake
          have hcp : c :: p' = stagLit.take (c :: p').length := by
            have := congrArg (List.take (c :: p').length) htake
            rw [List.take_append_eq_append_take, List.take_length,
              Nat.sub_self, List.take_zero, List.append_nil] at this
            exact this.symm
          rw [hcp] at htake
          obtain ⟨n, hn⟩ : ∃ n, (c :: p').length = n := ⟨_, rfl⟩
          rw [hn] at htake hk
          have hn1 : 1 ≤ n := by
            rw [← hn]
            simp
          have : n = 1 ∨ n = 2 ∨ n = 3 ∨ n = 4 ∨ n = 5 ∨ n = 6 := by omega
          rcases this with rfl | rfl | rfl | rfl | rfl | rfl <;>
            exact absurd htake (by decide)
      · rw [show (c :: p') ++ stagLit = c :: (p' ++ stagLit) from rfl, repFuel,
          if_neg (fun hconj => hpre hconj.2)]
        rw [ih p' (by simpa using Nat.le_of_succ_le_succ (by simpa using hlen))
          (fun hinf => hp (List.infix_cons hinf))]
        rfl

theorem not_infix_append_dash {q : List Char} (hq : ¬ stagLit <:+: q) :
    ¬ stagLit <:+: (q ++ ['-']) := by
  intro h
  rw [← List.reverse_infix, List.reverse_append] at h
  simp only [List.reverse_singleton, List.singleton_append] at h
  rcases List.infix_cons_iff.mp h with hpre | hinf
  · obtain ⟨t, ht⟩ := hpre
    rw [show (stagLit.reverse : List Char) = 'g' :: ['n', 'i', 'g', 'a', 't', 's'] from rfl] at ht
    simp at ht
  · rw [List.reverse_infix] at hinf
    exact hq hinf

theorem replace_before_suffix {q : List Char} (hq : ¬ stagLit <:+: q) :
    replaceAll stagLit candLit (q ++ '-' :: stagLit) = q ++ '-' :: candLit := by
  rw [show q ++ '-' :: stagLit = (q ++ ['-']) ++ stagLit from by simp, replaceAll,
    repFuel_boundary _ _ le_rfl (not_infix_append_dash hq)]
  simp

/-! ### Remaining classification helpers -/

theorem matchStandardM_of_not_standard {b : DistGitBranch} (h : b.is_standard = false) :
    matchStandardM b.name.data = none := by
  simp only [DistGitBranch.is_standard] at h
  exact Option.not_isSome_iff_eq_none.mp (by simp [h])

theorem staging_target_of_match {b : DistGitBranch} {base r : List Char}
    (h : stagingMatch b.name.data = some (base, r)) :
    b.staging_target = .ok (listToStr (replaceAll stagLit candLit base)) := by
  simp [DistGitBranch.staging_target, h]

theorem staging_target_standard {b : DistGitBranch} (hs : b.is_staging = false)
    {base : List Char} (h : matchStandardM b.name.data = some base) :
    b.staging_target = .ok (listToStr (base ++ candSuf)) := by
  simp [DistGitBranch.staging_target, stagingMatch_of_not_staging hs, h]

theorem staging_target_error {b : DistGitBranch} (h1 : b.is_staging = false)
    (h2 : b.is_standard = false) :
    b.staging_target = .error (b.name ++ " is not a staging or standard branch") := by
  simp [DistGitBranch.staging_target, stagingMatch_of_not_staging h1,
    matchStandardM_of_not_standard h2]

/-! ### Lemmas about the brew model -/

theorem passed_eq_ok_iff {a : BrewBuildAttempt} {b : Bool} :
    a.passed = .ok b ↔ a.succ = some b := by
  unfold BrewBuildAttempt.passed
  cases a.succ <;> simp

theorem passed_eq_error {a : BrewBuildAttempt} (h : a.succ = none) :
    a.passed = .error (.brewError brewNotSetMsg) := by
  simp [BrewBuildAttempt.passed, h]

theorem allSuccessfulAux_ok_true {builds : List (String × BrewBuildAttempt)} :
    ∀ {l : List String}, allSuccessfulAux builds l = .ok true →
      ∀ t ∈ l, ∃ a, dictGet builds t = some a ∧ a.succ = some true := by
  intro l
  induction l with
  | nil =>
    intro _ t ht
    exact absurd ht (List.not_mem_nil t)
  | cons u us ih =>
    intro h t ht
    rw [allSuccessfulAux] at h
    split at h
    · exact absurd h (by simp)
    next a hget =>
      split at h
      · exact absurd h (by simp)
      next b hb =>
        cases b with
        | false => exact absurd h (by simp)
        | true =>
          rw [if_pos rfl] at h
          rcases List.mem_cons.mp ht with rfl | ht'
          · exact ⟨a, hget, passed_eq_ok_iff.mp hb⟩
          · exact ih h t ht'

theorem allSuccessfulAux_error_at {builds : List (String × BrewBuildAttempt)}
    {t : String} {a : BrewBuildAttempt}
    (hget : dictGet builds t = some a) (hnone : a.succ = none) :
    ∀ ts1 : List String,
      (∀ u ∈ ts1, ∃ b, dictGet builds u = some b ∧ b.succ = some true) →
      ∀ ts2, allSuccessfulAux builds (ts1 ++ t :: ts2) =
        .error (.brewError brewNotSetMsg) := by
  intro ts1
  induction ts1 with
  | nil =>
    intro _ ts2
    simp [allSuccessfulAux, hget, passed_eq_error hnone]
  | cons u us ih =>
    intro hall ts2
    obtain ⟨b, hb, hbt⟩ := hall u (List.mem_cons_self u us)
    have hpass : b.passed = .ok true := passed_eq_ok_iff.mpr hbt
    simp only [List.cons_append, allSuccessfulAux, hb, hpass, if_pos]
    exact ih (fun v hv => hall v (List.mem_cons_of_mem u hv)) ts2

theorem dictGet_append_notMem {A B : List (String × BrewBuildAttempt)} {t : String}
    (h : ∀ e ∈ A, e.1 ≠ t) : dictGet (A ++ B) t = dictGet B t := by
  induction A with
  | nil => rfl
  | cons e A' ih =>
    have he : e.1 ≠ t := h e (List.mem_cons_self e A')
    cases e with
    | mk k v =>
      simp only [List.cons_append, dictGet, if_neg he]
      exact ih (fun e' he' => h e' (List.mem_cons_of_mem _ he'))

theorem dictSet_append_notMem {A B : List (String × BrewBuildAttempt)} {t : String}
    {v : BrewBuildAttempt} (h : ∀ e ∈ A, e.1 ≠ t) :
    dictSet (A ++ B) t v = A ++ dictSet B t v := by
  induction A with
  | nil => rfl
  | cons e A' ih =>
    have he : e.1 ≠ t := h e (List.mem_cons_self e A')
    cases e with
    | mk k w =>
      simp only [List.cons_append, dictSet, if_neg he]
      exact congrArg (List.cons (k, w)) (ih (fun e' he' => h e' (List.mem_cons_of_mem _ he')))

theorem dictSet_fresh {A : List (String × BrewBuildAttempt)} {t : String}
    {v : BrewBuildAttempt} (h : ∀ e ∈ A, e.1 ≠ t) :
    dictSet A t v = A ++ [(t, v)] := by
  induction A with
  | nil => rfl
  | cons e A' ih =>
    have he : e.1 ≠ t := h e (List.mem_cons_self e A')
    cases e with
    | mk k w =>
      simp only [dictSet, if_neg he, List.cons_append]
      rw [ih (fun e' he' => h e' (List.mem_cons_of_mem _ he'))]

/-- Entry for a target whose attempt has not been waited on. -/
def pendEntry (t : String) : String × BrewBuildAttempt := (t, { target := t, succ := none })

/-- Entry for a target whose attempt has recorded exit status `rc t`. -/
def doneEntry (rc : String → Int) (t : String) : String × BrewBuildAttempt :=
  (t, { target := t, succ := some (rc t == 0) })

theorem foldl_exec_fresh : ∀ (ts : List String) (acc : List (String × BrewBuildAttempt)),
    (∀ t ∈ ts, ∀ e ∈ acc, e.1 ≠ t) → ts.Nodup →
    ts.foldl (fun m t => dictSet m t { target := t, succ := none }) acc =
      acc ++ ts.map pendEntry := by
  intro ts
  induction ts with
  | nil =>
    intro acc _ _
    simp
  | cons t ts' ih =>
    intro acc hfresh hnd
    have hstep : dictSet acc t { target := t, succ := none } = acc ++ [pendEntry t] :=
      dictSet_fresh (fun e he => hfresh t (List.mem_cons_self t ts') e he)
    rw [List.foldl_cons, hstep,
      ih (acc ++ [pendEntry t]) ?_ (List.Nodup.of_cons hnd)]
    · simp
    · intro u hu e he
      rcases List.mem_append.mp he with he' | he'
      · exact hfresh u (List.mem_cons_of_mem t hu) e he'
      · rw [List.mem_singleton.mp he']
        show t ≠ u
        intro htu
        rw [htu] at hnd
        exact (List.nodup_cons.mp hnd).1 hu

theorem executeAll_builds {targets : List String} (h : targets.Nodup) :
    (BrewBuildAttempts.executeAll targets).builds = targets.map pendEntry := by
  unfold BrewBuildAttempts.executeAll
  simpa using foldl_exec_fresh targets [] (by simp) h

theorem waitList_done (rc : String → Int) : ∀ (post pre : List String),
    (pre ++ post).Nodup →
    waitList rc post (pre.map (doneEntry rc) ++ post.map pendEntry) =
      some ((pre ++ post).map (doneEntry rc)) := by
  intro post
  induction post with
  | nil =>
    intro pre _
    simp [waitList]
  | cons t ts ih =>
    intro pre hnd
    have htpre : ∀ e ∈ pre.map (doneEntry rc), e.1 ≠ t := by
      intro e he hot
      obtain ⟨u, hu, rfl⟩ := List.mem_map.mp he
      have hut : u = t := hot
      have hdisj := (List.nodup_append.mp hnd).2.2
      refine hdisj hu ?_
      rw [hut]
      exact List.mem_cons_self t ts
    have hget : dictGet (pre.map (doneEntry rc) ++ (t :: ts).map pendEntry) t =
        some { target := t, succ := none } := by
      rw [List.map_cons, dictGet_append_notMem htpre]
      simp [pendEntry, dictGet]
    have hset : dictSet (pre.map (doneEntry rc) ++ (t :: ts).map pendEntry) t
        (BrewBuildAttempt.wait { target := t, succ := none } (rc t)) =
        (pre ++ [t]).map (doneEntry rc) ++ ts.map pendEntry := by
      rw [List.map_cons, dictSet_append_notMem htpre]
      simp [pendEntry, doneEntry, dictSet, BrewBuildAttempt.wait]
    simp only [waitList, hget, hset]
    rw [ih (pre ++ [t]) (by simpa using hnd)]
    simp

theorem waitAll_executeAll {targets : List String} (h : targets.Nodup)
    (rc : String → Int) :
    (BrewBuildAttempts.executeAll targets).waitAll rc =
      some { targets := targets, builds := targets.map (doneEntry rc) } := by
  unfold BrewBuildAttempts.waitAll
  rw [show (BrewBuildAttempts.executeAll targets).targets = targets from rfl,
    executeAll_builds h]
  have := waitList_done rc targets [] (by simpa using h)
  simp only [List.map_nil, List.nil_append] at this
  rw [this]

theorem dictGet_doneMap {rc : String → Int} : ∀ {full : List String} {t : String},
    t ∈ full → dictGet (full.map (doneEntry rc)) t =
      some { target := t, succ := some (rc t == 0) } := by
  intro full
  induction full with
  | nil =>
    intro t ht
    exact absurd ht (List.not_mem_nil t)
  | cons u us ih =>
    intro t ht
    by_cases hut : u = t
    · subst hut
      simp [doneEntry, dictGet]
    · rcases List.mem_cons.mp ht with rfl | ht'
      · exact absurd rfl hut
      · simp only [List.map_cons, doneEntry, dictGet, if_neg hut]
        exact ih ht'

theorem allSuccessfulAux_doneMap {rc : String → Int} {full : List String} :
    ∀ {l : List String}, (∀ t ∈ l, t ∈ full) →
      allSuccessfulAux (full.map (doneEntry rc)) l = .ok (l.all (fun t => rc t == 0)) := by
  intro l
  induction l with
  | nil =>
    intro _
    simp [allSuccessfulAux]
  | cons t ts ih =>
    intro hsub
    have hget := @dictGet_doneMap rc full t (hsub t (List.mem_cons_self t ts))
    have hih := ih (fun u hu => hsub u (List.mem_cons_of_mem t hu))
    have hp : BrewBuildAttempt.passed { target := t, succ := some (rc t == 0) } =
        .ok (rc t == 0) := passed_eq_ok_iff.mpr rfl
    simp only [allSuccessfulAux, hget, hp]
    cases hb : (rc t == 0) with
    | false => simp [hb]
    | true => simp [hb, hih]

theorem countFailedAux_doneMap {rc : String → Int} : ∀ l : List String,
    countFailedAux (l.map (doneEntry rc)) = .ok (l.countP (fun t => !(rc t == 0))) := by
  intro l
  induction l with
  | nil => simp [countFailedAux]
  | cons t ts ih =>
    simp only [List.map_cons, doneEntry, countFailedAux,
      show BrewBuildAttempt.passed { target := t, succ := some (rc t == 0) } =
        .ok (rc t == 0) from passed_eq_ok_iff.mpr rfl, ih]
    rw [List.countP_cons]
    cases hb : (rc t == 0) <;> simp [hb, Nat.add_comm]

/-! ### Shared helper for private-branch behaviour -/

theorem private_branch_behavior {b : DistGitBranch} (h1 : b.is_staging = false)
    (h2 : b.is_standard = false) :
    b.type = "private" ∧ ∀ t, b.staging_target ≠ .ok t := by
  constructor
  · rw [DistGitBranch.type, if_neg (by simp [h1]), if_neg (by simp [h2])]
  · intro t hc
    rw [staging_target_error h1 h2] at hc
    exact absurd hc (by simp)

/-! ### The claims -/

/-- C3: every branch name matched by the standard pattern (anchored at the
end, staging rule not matching) is classified `standard`, and its
`staging_target` is the matched `st_branch` base with `-candidate` appended. -/
theorem C3_standard_classification (name : String) (base : List Char)
    (h1 : matchStandardM name.data = some base)
    (h2 : DistGitBranch.is_staging ⟨name⟩ = false) :
    DistGitBranch.type ⟨name⟩ = "standard" ∧
    DistGitBranch.staging_target ⟨name⟩ = .ok (listToStr (base ++ candSuf)) := by
  constructor
  · rw [DistGitBranch.type, if_neg (by simp [h2]),
      if_pos (show (⟨name⟩ : DistGitBranch).is_standard = true from by
        simp [DistGitBranch.is_standard, h1])]
  · exact staging_target_standard h2 h1

/-- Witness for C3 at the end-to-end scenario branch `extras-rhel-7.2`. -/
theorem C3_standard_classification_witness :
    (matchStandardM ("extras-rhel-7.2" : String).data =
        some ("extras-rhel-7.2" : String).data ∧
      DistGitBranch.is_staging ⟨"extras-rhel-7.2"⟩ = false) ∧
    DistGitBranch.type ⟨"extras-rhel-7.2"⟩ = "standard" ∧
    DistGitBranch.staging_target ⟨"extras-rhel-7.2"⟩ = .ok "extras-rhel-7.2-candidate" := by
  have h := C3_standard_classification "extras-rhel-7.2" ("extras-rhel-7.2" : String).data
    (by decide) (by decide)
  exact ⟨⟨by decide, by decide⟩, h.1, h.2.trans (by decide)⟩

/-- C5: a branch name matching neither the staging nor the standard pattern
is classified `private`, and `staging_target` fails with the
`DistGitBranchException` message, never returning a default target. -/
theorem C5_private_classification (name : String)
    (h1 : DistGitBranch.is_staging ⟨name⟩ = false)
    (h2 : DistGitBranch.is_standard ⟨name⟩ = false) :
    DistGitBranch.type ⟨name⟩ = "private" ∧
    DistGitBranch.staging_target ⟨name⟩ =
      .error (name ++ " is not a staging or standard branch") ∧
    ∀ t, DistGitBranch.staging_target ⟨name⟩ ≠ .ok t := by
  obtain ⟨hty, hok⟩ := private_branch_behavior h1 h2
  exact ⟨hty, staging_target_error h1 h2, hok⟩

/-- Witness for C5 at the end-to-end scenario branch `john-feature-branch`. -/
theorem C5_private_classification_witness :
    (DistGitBranch.is_staging ⟨"john-feature-branch"⟩ = false ∧
      DistGitBranch.is_standard ⟨"john-feature-branch"⟩ = false) ∧
    DistGitBranch.type ⟨"john-feature-branch"⟩ = "private" ∧
    DistGitBranch.staging_target ⟨"john-feature-branch"⟩ =
      .error "john-feature-branch is not a staging or standard branch" := by
  have h := C5_private_classification "john-feature-branch" (by decide) (by decide)
  exact ⟨⟨by decide, by decide⟩, h.1, h.2.1⟩

/-- C9: `type`, `staging_target`, `is_staging` and `is_standard` are pure
functions of the branch name: two branch objects with the same name yield
identical results, and no call mutates the branch (whose only observable
state is its name, which the embedding keeps immutable). -/
theorem C9_purity (b b' : DistGitBranch) (h : b.name = b'.name) :
    b.type = b'.type ∧ b.staging_target = b'.staging_target ∧
    b.is_staging = b'.is_staging ∧ b.is_standard = b'.is_standard := by
  cases b
  cases b'
  cases h
  exact ⟨rfl, rfl, rfl, rfl⟩

/-- Witness for C9 on the branch name `rhel-7.2`. -/
theorem C9_purity_witness :
    (DistGitBranch.mk "rhel-7.2").name = (DistGitBranch.mk "rhel-7.2").name ∧
    DistGitBranch.type ⟨"rhel-7.2"⟩ = DistGitBranch.type ⟨"rhel-7.2"⟩ ∧
    DistGitBranch.staging_target ⟨"rhel-7.2"⟩ = DistGitBranch.staging_target ⟨"rhel-7.2"⟩ :=
  ⟨rfl, (C9_purity ⟨"rhel-7.2"⟩ ⟨"rhel-7.2"⟩ rfl).1,
    (C9_purity ⟨"rhel-7.2"⟩ ⟨"rhel-7.2"⟩ rfl).2.1⟩

/-- C6: for a branch not classified staging or private staging,
`consider_build` returns exactly the config's target list when a config is
present (triggering a build), and the empty list without triggering any
build when no config is present; both are `ok` outcomes, never errors. -/
theorem C6_nonstaging_resolution (b : DistGitBranch) (config : Option (List String))
    (h1 : b.type ≠ "staging") (h2 : b.type ≠ "private staging") :
    CommitCI.consider_build b config = .ok (config.getD [], config.isSome) := by
  have hst : b.is_staging = false := by
    cases hs : b.is_staging with
    | false => rfl
    | true =>
      rcases type_staging_cases hs with h | h
      · exact absurd h h1
      · exact absurd h h2
  rw [CommitCI.consider_build.eq_def, if_neg (by simp [hst])]
  cases config with
  | none => rfl
  | some ts => rfl

/-- Witness for C6: scenario branch `john-feature-branch` with config
`["x86_64-extra"]` (build triggered on exactly it) and without a config. -/
theorem C6_nonstaging_resolution_witness :
    (DistGitBranch.type ⟨"john-feature-branch"⟩ ≠ "staging" ∧
      DistGitBranch.type ⟨"john-feature-branch"⟩ ≠ "private staging") ∧
    CommitCI.consider_build ⟨"john-feature-branch"⟩ (some ["x86_64-extra"]) =
      .ok (["x86_64-extra"], true) ∧
    CommitCI.consider_build ⟨"john-feature-branch"⟩ none = .ok ([], false) :=
  ⟨⟨by decide, by decide⟩,
    C6_nonstaging_resolution ⟨"john-feature-branch"⟩ (some ["x86_64-extra"])
      (by decide) (by decide),
    C6_nonstaging_resolution ⟨"john-feature-branch"⟩ none (by decide) (by decide)⟩

/-- Counterexample for C1: the resolved sequence is not duplicate-free.  For
the staging branch `rhel-7-staging` and a config whose target list contains a
duplicate, `_run_on_staging` keeps the duplicate: the claim's "duplicates
removed" fails (only the staging target itself is never inserted twice). -/
theorem C1_counterexample :
    CommitCI.run_on_staging ⟨"rhel-7-staging"⟩ (some ["a", "a"]) =
      .ok ["a", "a", "rhel-7-candidate"] ∧
    ¬ (["a", "a", "rhel-7-candidate"] : List String).Nodup := by
  constructor
  · decide
  · decide

/-- C1 (amended): for a branch classified Staging or PrivateStaging the
resolved sequence is the config's targets (empty when no config) followed by
the branch's staging target when it is not already present; the staging
target is never inserted twice, but duplicates already inside the config list
are preserved.  Consequently the staging target is always among the resolved
targets, regardless of config content. -/
theorem C1_staging_resolution (b : DistGitBranch) (config : Option (List String))
    (h : b.type = "staging" ∨ b.type = "private staging") :
    ∃ st, b.staging_target = .ok st ∧
      CommitCI.run_on_staging b config =
        .ok (config.getD [] ++ (if st ∈ config.getD [] then [] else [st])) ∧
      st ∈ config.getD [] ++ (if st ∈ config.getD [] then [] else [st]) := by
  have hst := is_staging_of_type h
  obtain ⟨⟨base, r⟩, hm⟩ := stagingMatch_of_is_staging hst
  refine ⟨listToStr (replaceAll stagLit candLit base), staging_target_of_match hm, ?_, ?_⟩
  · cases config with
    | none =>
      simp [CommitCI.run_on_staging, staging_target_of_match hm]
    | some ts =>
      by_cases hmem : listToStr (replaceAll stagLit candLit base) ∈ ts <;>
        simp [CommitCI.run_on_staging, staging_target_of_match hm, hmem]
  · by_cases hmem : listToStr (replaceAll stagLit candLit base) ∈ config.getD []
    · simp [hmem]
    · simp [hmem]

/-- Witness for C1 at the end-to-end scenario branch `rhel-7.1-staging`
without a config: resolved targets are `["rhel-7.1-candidate"]`. -/
theorem C1_staging_resolution_witness :
    (DistGitBranch.type ⟨"rhel-7.1-staging"⟩ = "staging" ∨
      DistGitBranch.type ⟨"rhel-7.1-staging"⟩ = "private staging") ∧
    (∃ st, DistGitBranch.staging_target ⟨"rhel-7.1-staging"⟩ = .ok st ∧
      CommitCI.run_on_staging ⟨"rhel-7.1-staging"⟩ none =
        .ok ((none : Option (List String)).getD [] ++
          (if st ∈ (none : Option (List String)).getD [] then [] else [st])) ∧
      st ∈ (none : Option (List String)).getD [] ++
        (if st ∈ (none : Option (List String)).getD [] then [] else [st])) ∧
    CommitCI.run_on_staging ⟨"rhel-7.1-staging"⟩ none = .ok ["rhel-7.1-candidate"] :=
  ⟨Or.inl (by decide),
    C1_staging_resolution ⟨"rhel-7.1-staging"⟩ none (Or.inl (by decide)),
    by decide⟩

/-- C2: a branch name built as `private-` + a `[\w_-]*` middle + a staging
core + an arbitrary suffix is classified `private staging`, and its
`staging_target` is that embedded staging base with `staging` replaced (in
the sense of `str.replace`) by `candidate` — independent of the middle and of
the suffix content.  The third hypothesis pins the quantified core as *the*
embedded base: no staging-core match starts earlier (the lazy prefix takes
the leftmost match, so without it "the embedded staging base" would be
ambiguous for names embedding several cores). -/
theorem C2_private_staging (mid core suffix : List Char)
    (hmid : mid.all isMidChar = true)
    (hcore : matchStagingCore core = some (core, []))
    (hfirst : ∀ i, i < mid.length →
      matchStagingCore (List.drop i (mid ++ core ++ suffix)) = none) :
    DistGitBranch.type ⟨listToStr (privLit ++ (mid ++ core ++ suffix))⟩ =
      "private staging" ∧
    DistGitBranch.staging_target ⟨listToStr (privLit ++ (mid ++ core ++ suffix))⟩ =
      .ok (listToStr (replaceAll stagLit candLit core)) := by
  have hm : stagingMatch
      ((⟨listToStr (privLit ++ (mid ++ core ++ suffix))⟩ : DistGitBranch).name.data) =
      some (core, suffix) := stagingMatch_private hmid hfirst hcore
  have hss : (⟨listToStr (privLit ++ (mid ++ core ++ suffix))⟩ : DistGitBranch).is_staging
      = true := by
    rw [DistGitBranch.is_staging, hm]
    rfl
  constructor
  · rw [DistGitBranch.type, if_pos hss,
      if_pos (show privLit.isPrefixOf
        (⟨listToStr (privLit ++ (mid ++ core ++ suffix))⟩ : DistGitBranch).name.data = true
        from isPrefixOf_append privLit (mid ++ core ++ suffix))]
  · exact staging_target_of_match hm

/-- Witness for C2 at the end-to-end scenario branch
`private-johnfoo-rhel-7.3-staging-BZ123456`. -/
theorem C2_private_staging_witness :
    DistGitBranch.type ⟨"private-johnfoo-rhel-7.3-staging-BZ123456"⟩ =
      "private staging" ∧
    DistGitBranch.staging_target ⟨"private-johnfoo-rhel-7.3-staging-BZ123456"⟩ =
      .ok "rhel-7.3-candidate" := by
  have h := C2_private_staging ("johnfoo-" : String).data ("rhel-7.3-staging" : String).data
    ("-BZ123456" : String).data (by decide) (by decide) (by decide)
  have hname : ("private-johnfoo-rhel-7.3-staging-BZ123456" : String) =
      listToStr (privLit ++ (("johnfoo-" : String).data ++
        ("rhel-7.3-staging" : String).data ++ ("-BZ123456" : String).data)) := by decide
  rw [hname]
  exact ⟨h.1, h.2.trans (by decide)⟩

/-- Counterexample for C4: the family prefix of the matched core is not
always preserved verbatim.  The staging branch
`rhscl-1.1-rh-staging-rhel-7-staging` has the matched core
`rhscl-1.1-rh-staging-rhel-7-staging` (the `\w+?` of the rhscl prefix matches
`staging`); `str.replace` rewrites both occurrences, so the code yields
`rhscl-1.1-rh-candidate-rhel-7-candidate`, not the claimed
`rhscl-1.1-rh-staging-rhel-7-candidate`. -/
theorem C4_counterexample :
    DistGitBranch.staging_target ⟨"rhscl-1.1-rh-staging-rhel-7-staging"⟩ =
      .ok "rhscl-1.1-rh-candidate-rhel-7-candidate" ∧
    ("rhscl-1.1-rh-candidate-rhel-7-candidate" : String) ≠
      "rhscl-1.1-rh-staging-rhel-7-candidate" := by
  constructor
  · decide
  · decide

/-- C4 (amended): for every branch name matching the staging pattern,
`staging_target` is the matched core with *every* occurrence of `staging`
replaced by `candidate` (Python `str.replace`); whenever the part of the core
before its final `-staging` suffix does not itself contain `staging` — in
particular for every plain or `extras-` prefixed core such as
`rhel-7.3-staging` — only the suffix is rewritten and the prefix is preserved
verbatim. -/
theorem C4_staging_target_replace (name : String) (base r : List Char)
    (h : stagingMatch name.data = some (base, r)) :
    DistGitBranch.staging_target ⟨name⟩ =
      .ok (listToStr (replaceAll stagLit candLit base)) ∧
    ∀ q, base = q ++ '-' :: stagLit → ¬ stagLit <:+: q →
      DistGitBranch.staging_target ⟨name⟩ = .ok (listToStr (q ++ '-' :: candLit)) := by
  refine ⟨staging_target_of_match h, ?_⟩
  intro q hq hnotin
  rw [staging_target_of_match h, hq, replace_before_suffix hnotin]

/-- Witness for C4 (amended) at the spec's example `rhel-7.3-staging`. -/
theorem C4_staging_target_replace_witness :
    DistGitBranch.staging_target ⟨"rhel-7.3-staging"⟩ = .ok "rhel-7.3-candidate" := by
  have h := (C4_staging_target_replace "rhel-7.3-staging"
    ("rhel-7.3-staging" : String).data [] (by decide)).2
    ("rhel-7.3" : String).data (by decide) (by decide)
  exact h.trans (by decide)

/-- Counterexample for C7: `all_passed` does not always raise when an attempt
is incomplete.  Start attempts for `t1` and `t2`, wait on `t1` alone with
exit status 1 (a failed, terminal attempt) and leave `t2` unwaited
(non-terminal): `all_successful` short-circuits on the failed `t1` and
returns `ok false` instead of raising `BrewBuildAttemptException`. -/
theorem C7_counterexample :
    ((BrewBuildAttempts.executeAll ["t1", "t2"]).waitOne "t1" 1).map
        (fun s => (s.all_successful, dictGet s.builds "t2")) =
      some (.ok false, some { target := "t2", succ := none }) := by
  decide

/-- C7 (amended): when some started attempt has not reached a terminal state
(`_success` unset for a target `t` of the target list), `all_passed` never
returns true: it raises the `BrewBuildAttemptException` from `passed()`
whenever every attempt listed before `t` has passed (in particular whenever
no attempt has completed); if an earlier attempt has failed it returns false
without raising. -/
theorem C7_incomplete_attempts (s : BrewBuildAttempts) (ts1 ts2 : List String)
    (t : String) (a : BrewBuildAttempt)
    (hsplit : s.targets = ts1 ++ t :: ts2)
    (hget : dictGet s.builds t = some a) (hnone : a.succ = none) :
    s.all_successful ≠ .ok true ∧
    ((∀ u ∈ ts1, ∃ b, dictGet s.builds u = some b ∧ b.succ = some true) →
      s.all_successful = .error (.brewError brewNotSetMsg)) := by
  constructor
  · intro hok
    rw [BrewBuildAttempts.all_successful] at hok
    obtain ⟨a', hget', hsucc'⟩ := allSuccessfulAux_ok_true hok t
      (by rw [hsplit]; exact List.mem_append_right _ (List.mem_cons_self t ts2))
    rw [hget] at hget'
    obtain rfl : a = a' := by injection hget'
    rw [hnone] at hsucc'
    exact absurd hsucc' (by simp)
  · intro hall
    rw [BrewBuildAttempts.all_successful, hsplit]
    exact allSuccessfulAux_error_at hget hnone ts1 hall ts2

/-- Witness for C7 (amended): two started, unwaited attempts; `all_passed`
raises and in particular never reports success. -/
theorem C7_incomplete_attempts_witness :
    (BrewBuildAttempts.executeAll ["t1", "t2"]).all_successful ≠ .ok true ∧
    (BrewBuildAttempts.executeAll ["t1", "t2"]).all_successful =
      .error (.brewError brewNotSetMsg) := by
  have h := C7_incomplete_attempts (BrewBuildAttempts.executeAll ["t1", "t2"]) [] ["t2"]
    "t1" { target := "t1", succ := none } (by decide) (by decide) rfl
  exact ⟨h.1, h.2 (fun u hu => absurd hu (List.not_mem_nil u))⟩

/-- C8: after `execute` and a completed `wait` (the spec's `await_all`) over
a duplicate-free target list, `all_passed` returns true iff every attempt's
external execution exited with 0, and `failed_count` returns exactly the
number of attempts whose execution exited non-zero. -/
theorem C8_after_waitAll (targets : List String) (rc : String → Int)
    (hnd : targets.Nodup) :
    ∃ s, (BrewBuildAttempts.executeAll targets).waitAll rc = some s ∧
      s.all_successful = .ok (targets.all (fun t => rc t == 0)) ∧
      s.count_failed = .ok (targets.countP (fun t => !(rc t == 0))) := by
  refine ⟨_, waitAll_executeAll hnd rc, ?_, ?_⟩
  · rw [BrewBuildAttempts.all_successful]
    exact allSuccessfulAux_doneMap (fun t ht => ht)
  · rw [BrewBuildAttempts.count_failed]
    exact countFailedAux_doneMap targets

/-- Exit statuses for the C8 scenario: target `a` fails (status 1), `b`
passes (status 0). -/
def rcScenario : String → Int := fun t => if t = "a" then 1 else 0

/-- Witness for C8 at end-to-end scenario 5: two targets, one failing
external execution and one successful one; `all_passed` is false and
`failed_count` is 1. -/
theorem C8_after_waitAll_witness :
    (["a", "b"] : List String).Nodup ∧
    ∃ s, (BrewBuildAttempts.executeAll ["a", "b"]).waitAll rcScenario = some s ∧
      s.all_successful = .ok false ∧ s.count_failed = .ok 1 := by
  obtain ⟨s, h1, h2, h3⟩ := C8_after_waitAll ["a", "b"] rcScenario (by decide)
  refine ⟨by decide, s, h1, ?_, ?_⟩
  · rw [h2]
    decide
  · rw [h3]
    decide

/-! ### Multi-digit version components -/

theorem ne_of_digit {c d : Char} (hc : c.isDigit = true) (hd : d.isDigit = false) :
    c ≠ d := by
  intro he
  rw [← he] at hd
  rw [hc] at hd
  exact Bool.noConfusion hd

theorem endDollar_digit {d : Char} (hd : d.isDigit = true) (rest : List Char) :
    endDollar (d :: rest) = false := by
  cases rest with
  | nil => simp [endDollar, ne_of_digit hd (show ('\n').isDigit = false from by decide)]
  | cons e es => rfl

theorem matchCore_rhel_multi {d1 d2 : Char} (hd1 : d1.isDigit = true)
    (hd2 : d2.isDigit = true) (rest : List Char) :
    matchCore (rhelHd ++ d1 :: d2 :: rest) = some (rhelHd ++ [d1], d2 :: rest) := by
  unfold matchCore
  rw [matchCorePrefix_build_nil (d1 :: d2 :: rest)]
  have hr : matchRhel (rhelHd ++ d1 :: d2 :: rest) = some (rhelHd ++ [d1], d2 :: rest) :=
    matchRhel_build_nominor hd1 (fun cs hcs =>
      absurd (List.cons.inj hcs).1 (ne_of_digit hd2 (show ('.').isDigit = false from by
        decide)))
  simp [hr]

theorem matchCore_minor_multi {d m1 : Char} (hd : d.isDigit = true)
    (hm1 : m1.isDigit = true) (rest : List Char) :
    matchCore (rhelHd ++ d :: '.' :: m1 :: rest) = some (rhelHd ++ [d, '.', m1], rest) := by
  unfold matchCore
  rw [matchCorePrefix_build_nil (d :: '.' :: m1 :: rest)]
  simp [matchRhel_build_minor hd hm1 rest]

theorem stripL_privLit_rhel (x : List Char) : stripL privLit (rhelHd ++ x) = none := by
  simp [stripL, privLit, rhelHd]

theorem stagingMatch_rhel_multi {d1 d2 : Char} (hd1 : d1.isDigit = true)
    (hd2 : d2.isDigit = true) (rest : List Char) :
    stagingMatch (rhelHd ++ d1 :: d2 :: rest) = none := by
  unfold stagingMatch
  rw [stripL_privLit_rhel]
  unfold noPrefixStaging matchStagingCore
  rw [matchCore_rhel_multi hd1 hd2 rest]
  simp [stagSuf, stripL, ne_of_digit hd2 (show ('-').isDigit = false from by decide)]

theorem standardM_rhel_multi {d1 d2 : Char} (hd1 : d1.isDigit = true)
    (hd2 : d2.isDigit = true) (rest : List Char) :
    matchStandardM (rhelHd ++ d1 :: d2 :: rest) = none := by
  unfold matchStandardM
  rw [matchCore_rhel_multi hd1 hd2 rest]
  simp [endDollar_digit hd2]

theorem stagingMatch_minor_multi {d m1 m2 : Char} (hd : d.isDigit = true)
    (hm1 : m1.isDigit = true) (hm2 : m2.isDigit = true) (rest : List Char) :
    stagingMatch (rhelHd ++ d :: '.' :: m1 :: m2 :: rest) = none := by
  unfold stagingMatch
  rw [stripL_privLit_rhel]
  unfold noPrefixStaging matchStagingCore
  rw [matchCore_minor_multi hd hm1 (m2 :: rest)]
  simp [stagSuf, stripL, ne_of_digit hm2 (show ('-').isDigit = false from by decide)]

theorem standardM_minor_multi {d m1 m2 : Char} (hd : d.isDigit = true)
    (hm1 : m1.isDigit = true) (hm2 : m2.isDigit = true) (rest : List Char) :
    matchStandardM (rhelHd ++ d :: '.' :: m1 :: m2 :: rest) = none := by
  unfold matchStandardM
  rw [matchCore_minor_multi hd hm1 (m2 :: rest)]
  simp [endDollar_digit hm2]

/-- C10: a branch name whose RHEL major version has more than one digit
(plain or with a `-staging` suffix), or whose minor version has more than one
digit, matches neither pattern: both patterns accept exactly one digit per
component, so the branch is classified `private` and `staging_target` never
returns a target for it. -/
theorem C10_multidigit_private :
    (∀ major : List Char, major.all Char.isDigit = true → 2 ≤ major.length →
      DistGitBranch.type ⟨listToStr (rhelHd ++ major)⟩ = "private" ∧
      (∀ t, DistGitBranch.staging_target ⟨listToStr (rhelHd ++ major)⟩ ≠ .ok t) ∧
      DistGitBranch.type ⟨listToStr (rhelHd ++ major ++ stagSuf)⟩ = "private" ∧
      (∀ t, DistGitBranch.staging_target ⟨listToStr (rhelHd ++ major ++ stagSuf)⟩ ≠
        .ok t)) ∧
    (∀ (d : Char) (minor : List Char), d.isDigit = true →
      minor.all Char.isDigit = true → 2 ≤ minor.length →
      DistGitBranch.type ⟨listToStr (rhelHd ++ d :: '.' :: minor)⟩ = "private" ∧
      (∀ t, DistGitBranch.staging_target ⟨listToStr (rhelHd ++ d :: '.' :: minor)⟩ ≠
        .ok t)) := by
  constructor
  · intro major hdig hlen
    obtain ⟨d1, d2, ds, rfl⟩ : ∃ d1 d2 ds, major = d1 :: d2 :: ds := by
      cases major with
      | nil => simp at hlen
      | cons d1 rest =>
        cases rest with
        | nil => simp at hlen
        | cons d2 ds => exact ⟨d1, d2, ds, rfl⟩
    simp only [List.all_cons, Bool.and_eq_true] at hdig
    obtain ⟨hd1, hd2, _⟩ := hdig
    have hs1 : (⟨listToStr (rhelHd ++ d1 :: d2 :: ds)⟩ : DistGitBranch).is_staging
        = false := by
      show (stagingMatch (rhelHd ++ d1 :: d2 :: ds)).isSome = false
      rw [stagingMatch_rhel_multi hd1 hd2 ds]
      rfl
    have hn1 : (⟨listToStr (rhelHd ++ d1 :: d2 :: ds)⟩ : DistGitBranch).is_standard
        = false := by
      show (matchStandardM (rhelHd ++ d1 :: d2 :: ds)).isSome = false
      rw [standardM_rhel_multi hd1 hd2 ds]
      rfl
    have hs2 : (⟨listToStr (rhelHd ++ (d1 :: d2 :: ds) ++ stagSuf)⟩ :
        DistGitBranch).is_staging = false := by
      show (stagingMatch (rhelHd ++ (d1 :: d2 :: ds) ++ stagSuf)).isSome = false
      rw [show rhelHd ++ (d1 :: d2 :: ds) ++ stagSuf =
        rhelHd ++ d1 :: d2 :: (ds ++ stagSuf) from by simp,
        stagingMatch_rhel_multi hd1 hd2 (ds ++ stagSuf)]
      rfl
    have hn2 : (⟨listToStr (rhelHd ++ (d1 :: d2 :: ds) ++ stagSuf)⟩ :
        DistGitBranch).is_standard = false := by
      show (matchStandardM (rhelHd ++ (d1 :: d2 :: ds) ++ stagSuf)).isSome = false
      rw [show rhelHd ++ (d1 :: d2 :: ds) ++ stagSuf =
        rhelHd ++ d1 :: d2 :: (ds ++ stagSuf) from by simp,
        standardM_rhel_multi hd1 hd2 (ds ++ stagSuf)]
      rfl
    obtain ⟨hty1, hok1⟩ := private_branch_behavior hs1 hn1
    obtain ⟨hty2, hok2⟩ := private_branch_behavior hs2 hn2
    exact ⟨hty1, hok1, hty2, hok2⟩
  · intro d minor hd hdig hlen
    obtain ⟨m1, m2, ms, rfl⟩ : ∃ m1 m2 ms, minor = m1 :: m2 :: ms := by
      cases minor with
      | nil => simp at hlen
      | cons m1 rest =>
        cases rest with
        | nil => simp at hlen
        | cons m2 ms => exact ⟨m1, m2, ms, rfl⟩
    simp only [List.all_cons, Bool.and_eq_true] at hdig
    obtain ⟨hm1, hm2, _⟩ := hdig
    have hs : (⟨listToStr (rhelHd ++ d :: '.' :: m1 :: m2 :: ms)⟩ :
        DistGitBranch).is_staging = false := by
      show (stagingMatch (rhelHd ++ d :: '.' :: m1 :: m2 :: ms)).isSome = false
      rw [stagingMatch_minor_multi hd hm1 hm2 ms]
      rfl
    have hn : (⟨listToStr (rhelHd ++ d :: '.' :: m1 :: m2 :: ms)⟩ :
        DistGitBranch).is_standard = false := by
      show (matchStandardM (rhelHd ++ d :: '.' :: m1 :: m2 :: ms)).isSome = false
      rw [standardM_minor_multi hd hm1 hm2 ms]
      rfl
    exact private_branch_behavior hs hn

/-- Witness for C10 at the example branches `rhel-10`, `rhel-10-staging` and
`rhel-7.10`. -/
theorem C10_multidigit_private_witness :
    DistGitBranch.type ⟨"rhel-10"⟩ = "private" ∧
    DistGitBranch.type ⟨"rhel-10-staging"⟩ = "private" ∧
    DistGitBranch.type ⟨"rhel-7.10"⟩ = "private" ∧
    (∀ t, DistGitBranch.staging_target ⟨"rhel-10"⟩ ≠ .ok t) ∧
    (∀ t, DistGitBranch.staging_target ⟨"rhel-10-staging"⟩ ≠ .ok t) ∧
    (∀ t, DistGitBranch.staging_target ⟨"rhel-7.10"⟩ ≠ .ok t) := by
  have h1 := C10_multidigit_private.1 ("10" : String).data (by decide) (by decide)
  have h2 := C10_multidigit_private.2 '7' ("10" : String).data (by decide) (by decide)
    (by decide)
  have e1 : ("rhel-10" : String) = listToStr (rhelHd ++ ("10" : String).data) := by decide
  have e2 : ("rhel-10-staging" : String) =
      listToStr (rhelHd ++ ("10" : String).data ++ stagSuf) := by decide
  have e3 : ("rhel-7.10" : String) =
      listToStr (rhelHd ++ '7' :: '.' :: ("10" : String).data) := by decide
  rw [e1, e2, e3]
  exact ⟨h1.1, h1.2.2.1, h2.1, h1.2.1, h1.2.2.2, h2.2⟩
